import Mathlib

/-!
Verification development for the quote-verification subsystem of the
storyforge article-drafting repository (the `QuoteChecker` component).

The source is TypeScript; we embed it shallowly:
* strings are `List Char`;
* JavaScript numbers used for confidences are exact rationals `ℚ`
  (every confidence computed by the code is a ratio of small integers
  scaled by 100 or 80);
* JavaScript regular expressions are embedded as an explicit AST `RE`
  together with a backtracking matcher following ECMAScript semantics
  (leftmost match, ordered alternation, greedy/lazy quantifiers, the
  no-empty-iteration rule for unbounded repetition).

Sections:
1. Text normalization (`normalizeText`) and substring search (`findSub`),
   from the `normalizeText` closure and `String.prototype.includes`/
   `indexOf`/`substring` uses in `findQuoteInTranscript`.
2. The three-tier matcher `findQuoteInTranscript`.
3. The regex engine and the four quote patterns of `extractQuotesFromDraft`.
4. The extractor `extractQuotesFromDraft` and orchestration `verifyQuotes`.
5. Theorems for the claims.
-/

/-- ASCII word character, as matched by JavaScript's `\w`: `[A-Za-z0-9_]`. -/
def isWordChar (c : Char) : Bool := c.isAlphanum || c = '_'

/-- Whitespace, as matched by JavaScript's `\s` (the ASCII part: space, tab,
line feed, vertical tab, form feed, carriage return). -/
def isSpaceChar (c : Char) : Bool :=
  c = ' ' || c = '\t' || c = '\n' || c = '\x0b' || c = '\x0c' || c = '\r'

/-- One pass of `.replace(/\s+/g, ' ')`: collapse every maximal run of
whitespace characters to a single `' '`.  The flag records whether we are
inside a whitespace run already emitted as one space. -/
def collapseWS : Bool → List Char → List Char
  | _, [] => []
  | inRun, c :: rest =>
    if isSpaceChar c then
      if inRun then collapseWS true rest
      else ' ' :: collapseWS true rest
    else c :: collapseWS false rest

/-- Drop trailing whitespace. -/
def dropTrailingWS (s : List Char) : List Char :=
  ((s.reverse).dropWhile isSpaceChar).reverse

/-- JavaScript `String.prototype.trim`: drop leading and trailing whitespace. -/
def trimWS (s : List Char) : List Char :=
  dropTrailingWS (s.dropWhile isSpaceChar)

/-- The `normalizeText` closure of `findQuoteInTranscript`:
`text.toLowerCase().replace(/[^\w\s]/g, ' ').replace(/\s+/g, ' ').trim()`. -/
def normalizeText (text : List Char) : List Char :=
  trimWS (collapseWS false
    ((text.map Char.toLower).map
      (fun c => if isWordChar c || isSpaceChar c then c else ' ')))

/-- JavaScript `hay.indexOf(needle)` for strings: the first index at which
`needle` occurs as a contiguous substring of `hay`, or `none`
(`indexOf` returns `-1`); `hay.includes(needle)` is `(findSub hay needle).isSome`.
Note `findSub hay [] = some 0`, as in JavaScript. -/
def findSub : List Char → List Char → Option Nat
  | [], needle => if needle.isPrefixOf ([] : List Char) then some 0 else none
  | c :: rest, needle =>
    if needle.isPrefixOf (c :: rest) then some 0
    else (findSub rest needle).map (· + 1)

/-- JavaScript `s.substring(a, b)` for `a ≤ b` (clamped to the string's
length, as in JavaScript). -/
def substringJS (s : List Char) (a b : Nat) : List Char :=
  (s.drop a).take (b - a)

/-- JavaScript `arr.join(sep)`. -/
def joinSep (sep : List Char) : List (List Char) → List Char
  | [] => []
  | [w] => w
  | w :: ws => w ++ sep ++ joinSep sep ws

/-- JavaScript `str.split(c)` for a single-character separator: split at
every occurrence of `c`; `"".split(c) = [""]`. -/
def splitCh (c : Char) : List Char → List (List Char)
  | [] => [[]]
  | d :: rest =>
    if d = c then [] :: splitCh c rest
    else
      match splitCh c rest with
      | w :: ws => (d :: w) :: ws
      | [] => [[d]]

/-- The `matchType` values of the source:
`'exact' | 'partial' | 'paraphrased' | 'not_found'`. -/
inductive MatchType where
  | exact
  | partialMatch
  | paraphrased
  | notFound
deriving DecidableEq

/-- A matched transcript segment (`{start, end, text}` in the source;
`end` is a Lean keyword, so the field is `stop`). -/
structure Segment where
  start : Nat
  stop : Nat
  text : List Char
deriving DecidableEq

/-- The mutable `bestMatch` record of `findQuoteInTranscript`. -/
structure BestMatch where
  words : List (List Char)
  confidence : ℚ
  segments : List Segment
deriving DecidableEq

/-- The result record of `findQuoteInTranscript` (`match` is a Lean
keyword, so that field is `matched`). -/
structure FindResult where
  matched : Option (List Char)
  matchType : MatchType
  confidence : ℚ
  snippet : Option (List Char)
  startIndex : Option Nat
  endIndex : Option Nat
deriving DecidableEq

/-- The initial `bestMatch = { words: [], confidence: 0, segments: [] }`. -/
def best0 : BestMatch := ⟨[], 0, []⟩

/-- One iteration of the tier-2 inner loop: test the window of `ws` quote
words starting at word `i`, and update `best` when the window occurs in the
normalized transcript with strictly larger confidence. -/
def windowStep (quoteWords : List (List Char)) (nT oT : List Char)
    (ws i : Nat) (best : BestMatch) : BestMatch :=
  let window := joinSep [' '] ((quoteWords.drop i).take ws)
  match findSub nT window with
  | none => best
  | some idx =>
    let conf : ℚ := ((ws : ℚ) / (quoteWords.length : ℚ)) * 100
    if best.confidence < conf then
      ⟨(quoteWords.drop i).take ws, conf,
        [⟨idx, idx + window.length, substringJS oT idx (idx + window.length)⟩]⟩
    else best

/-- Tier 2 of `findQuoteInTranscript`: sliding windows of `windowSize` from
`min(quoteWords.length, 8)` down to `3`, and for each size all start
positions `0 ≤ i ≤ quoteWords.length - windowSize` in order. -/
def tier2 (quoteWords : List (List Char)) (nT oT : List Char) : BestMatch :=
  let L := quoteWords.length
  ((List.range' 3 (min L 8 + 1 - 3)).reverse).foldl
    (fun best ws =>
      (List.range (L - ws + 1)).foldl
        (fun b i => windowStep quoteWords nT oT ws i b) best)
    best0

/-- Tier 3 word scan of `findQuoteInTranscript`: for each quote word longer
than 3 characters, look up its first occurrence in the normalized transcript;
returns the pushed segments and `totalWordsFound`. -/
def tier3Scan (quoteWords : List (List Char)) (nT oT : List Char) :
    List Segment × Nat :=
  quoteWords.foldl
    (fun (acc : List Segment × Nat) word =>
      if 3 < word.length then
        match findSub nT word with
        | some idx =>
          (acc.1 ++ [⟨idx, idx + word.length,
            substringJS oT idx (idx + word.length)⟩], acc.2 + 1)
        | none => acc
      else acc)
    ([], 0)

/-- The `'not_found'` return value (`confidence: 0`). -/
def notFoundResult : FindResult := ⟨none, MatchType.notFound, 0, none, none, none⟩

/-- The tier-3 block of `findQuoteInTranscript`
(`if (bestMatch.confidence < 50) { … }`): run the word scan and replace the
best match when the scatter confidence is strictly larger. -/
def mergeTier3 (quoteWords : List (List Char)) (nT oT : List Char)
    (best : BestMatch) : BestMatch :=
  if best.confidence < 50 then
    let scan := tier3Scan quoteWords nT oT
    if 0 < scan.1.length then
      let conf : ℚ := ((scan.2 : ℚ) / (quoteWords.length : ℚ)) * 80
      if best.confidence < conf then ⟨[], conf, scan.1⟩ else best
    else best
  else best

/-- The final classification of `findQuoteInTranscript`: the `>= 30`
acceptance floor, the multi-segment snippet with `'...'` separators, and
the `>= 70` partial/paraphrased split. -/
def classify (best : BestMatch) : FindResult :=
  if 30 ≤ best.confidence then
    if 1 < best.segments.length then
      let sorted := best.segments.mergeSort (fun a b => a.start ≤ b.start)
      let snippet := joinSep ['.', '.', '.'] (sorted.map Segment.text)
      let mt := if 70 ≤ best.confidence then MatchType.partialMatch
        else MatchType.paraphrased
      ⟨some snippet, mt, best.confidence, some snippet,
        (sorted.head?).map Segment.start, (sorted.getLast?).map Segment.stop⟩
    else
      match best.segments with
      | [seg] =>
        ⟨some seg.text,
          (if 70 ≤ best.confidence then MatchType.partialMatch
            else MatchType.paraphrased),
          best.confidence, some seg.text, some seg.start, some seg.stop⟩
      | _ => notFoundResult
  else notFoundResult

/-- `findQuoteInTranscript(quote, transcriptText)` of the source, embedded
step for step: tier 1 exact containment of the normalized quote in the
normalized transcript; tier 2 sliding windows; tier 3 (only when tier 2's
best confidence is `< 50`) the per-word scatter scan; then the `>= 30`
acceptance floor and the `>= 70` partial/paraphrased split.  As in the
source, snippets are cut out of the ORIGINAL transcript text at indices
computed in the NORMALIZED transcript. -/
def findQuoteInTranscript (quote transcriptText : List Char) : FindResult :=
  let normalizedQuote := normalizeText quote
  let normalizedTranscript := normalizeText transcriptText
  let quoteWords := splitCh ' ' normalizedQuote
  match findSub normalizedTranscript normalizedQuote with
  | some startIndex =>
    let endIndex := startIndex + normalizedQuote.length
    let snippet := substringJS transcriptText startIndex endIndex
    ⟨some snippet, MatchType.exact, 100, some snippet, some startIndex, some endIndex⟩
  | none =>
    classify
      (mergeTier3 quoteWords normalizedTranscript transcriptText
        (tier2 quoteWords normalizedTranscript transcriptText))


/-! ## Regular-expression engine

`extractQuotesFromDraft` drives four JavaScript regexes with flags `gi`.
We embed them as an AST and a continuation-passing backtracking matcher
with ECMAScript semantics: ordered alternation, greedy and lazy
quantifiers, and the rule that an unbounded repetition stops at an
iteration that consumes nothing.  Fuel makes the matcher total; the fuel
supplied by `matchTop` is far larger than any backtracking depth the
patterns can reach on the given input. -/

/-- Regex AST: `eps` the empty pattern, `cls` a single-character class,
`seq`/`alt` concatenation and ordered alternation, `rep lo lzy a` the
quantifier `a{lo,}` (greedy when `lzy = false`, lazy when `lzy = true`;
`a* = rep 0 false a`, `a+ = rep 1 false a`, `a{20,}? = rep 20 true a`),
`grp i a` capture group number `i`. -/
inductive RE where
  | eps
  | cls (p : Char → Bool)
  | seq (a b : RE)
  | alt (a b : RE)
  | rep (lo : Nat) (lzy : Bool) (a : RE)
  | grp (i : Nat) (a : RE)

/-- The two capture groups of each pattern, as half-open index ranges into
the subject (JavaScript `match[1]`, `match[2]`). -/
structure Caps where
  c1 : Option (Nat × Nat)
  c2 : Option (Nat × Nat)
deriving DecidableEq

/-- Record a capture. -/
def Caps.setCap (c : Caps) (i : Nat) (s e : Nat) : Caps :=
  if i = 1 then { c with c1 := some (s, e) }
  else if i = 2 then { c with c2 := some (s, e) }
  else c

/-- The backtracking matcher: `mrx input fuel re pos caps k` tries `re` at
`pos` and passes each candidate end position to the continuation `k`, in
ECMAScript priority order, returning the first success.  In `rep 0`, an
iteration must consume input (`pos < p'`), as in ECMAScript's
RepeatMatcher; none of the four patterns has a group inside a quantifier,
so iteration capture reset is omitted. -/
def mrx (input : List Char) :
    Nat → RE → Nat → Caps → (Nat → Caps → Option (Nat × Caps)) → Option (Nat × Caps)
  | 0, _, _, _, _ => none
  | fuel + 1, re, pos, caps, k =>
    match re with
    | .eps => k pos caps
    | .cls p =>
      match input.get? pos with
      | some c => if p c then k (pos + 1) caps else none
      | none => none
    | .seq a b => mrx input fuel a pos caps (fun p' c' => mrx input fuel b p' c' k)
    | .alt a b =>
      match mrx input fuel a pos caps k with
      | some r => some r
      | none => mrx input fuel b pos caps k
    | .grp i a => mrx input fuel a pos caps (fun p' c' => k p' (c'.setCap i pos p'))
    | .rep 0 lzy a =>
      if lzy then
        match k pos caps with
        | some r => some r
        | none =>
          mrx input fuel a pos caps
            (fun p' c' => if pos < p' then mrx input fuel (.rep 0 lzy a) p' c' k else none)
      else
        match mrx input fuel a pos caps
            (fun p' c' => if pos < p' then mrx input fuel (.rep 0 lzy a) p' c' k else none) with
        | some r => some r
        | none => k pos caps
    | .rep (lo + 1) lzy a =>
      mrx input fuel a pos caps (fun p' c' => mrx input fuel (.rep lo lzy a) p' c' k)

/-- An over-approximation of the matcher's backtracking depth per consumed
character, used to pick the fuel. -/
def reSize : RE → Nat
  | .eps => 1
  | .cls _ => 1
  | .seq a b => 1 + reSize a + reSize b
  | .alt a b => 1 + reSize a + reSize b
  | .rep lo _ a => (lo + 2) * (reSize a + 1)
  | .grp _ a => 1 + reSize a

/-- Try `re` anchored at `pos`: the ECMAScript match attempt at one start
position.  Returns the end position and captures of the first match in
priority order. -/
def matchTop (re : RE) (input : List Char) (pos : Nat) : Option (Nat × Caps) :=
  mrx input ((input.length + 2) * (reSize re + 2)) re pos ⟨none, none⟩
    (fun p c => some (p, c))

/-- One regex match as `exec` reports it: `index`, the end of `match[0]`
(`stop`), and the captures. -/
structure RxMatch where
  index : Nat
  stop : Nat
  caps : Caps
deriving DecidableEq

/-- Scan start positions `pos, pos+1, …, input.length` and return the
leftmost match, as `exec` does from `lastIndex`. -/
def firstMatchAux (re : RE) (input : List Char) : Nat → Nat → Option RxMatch
  | 0, _ => none
  | fuel + 1, pos =>
    if pos ≤ input.length then
      match matchTop re input pos with
      | some (stop, caps) => some ⟨pos, stop, caps⟩
      | none => firstMatchAux re input fuel (pos + 1)
    else none

/-- The leftmost match at or after `pos`. -/
def firstMatchFrom (re : RE) (input : List Char) (pos : Nat) : Option RxMatch :=
  firstMatchAux re input (input.length + 1 - pos) pos

/-- The `while ((match = regex.exec(draftText)) !== null)` loop: successive
matches, each search resuming at the previous match's end (`lastIndex`).
On a zero-width match the JavaScript loop would re-find the same match
forever; the four patterns cannot match the empty string, and the embedding
stops after recording such a match once. -/
def execAllAux (re : RE) (input : List Char) : Nat → Nat → List RxMatch
  | 0, _ => []
  | fuel + 1, pos =>
    match firstMatchFrom re input pos with
    | none => []
    | some m =>
      if m.index < m.stop then m :: execAllAux re input fuel m.stop
      else [m]

/-- All matches of `re` on `input`, in the order `exec` reports them. -/
def execAll (re : RE) (input : List Char) : List RxMatch :=
  execAllAux re input (input.length + 1) 0

/-! ### The four quote patterns

Transliterations of the `quotePatterns` array.  The `i` flag makes
literal characters case-insensitive (`chCI`); character classes are
unaffected here. -/

/-- A literal pattern character under the `i` flag. -/
def chCI (c : Char) : RE := RE.cls (fun d => d.toLower = c.toLower)

/-- Concatenation of a list of regexes. -/
def catRE (l : List RE) : RE := l.foldr RE.seq RE.eps

/-- A case-insensitive literal word. -/
def strCI (s : String) : RE := catRE (s.toList.map chCI)

/-- A regex that never matches (tail of an alternation list). -/
def failRE : RE := RE.cls (fun _ => false)

/-- Ordered alternation over a list. -/
def altRE (l : List RE) : RE := l.foldr RE.alt failRE

/-- The attribution-verb alternation
`(?:said|explained|noted|shared|mentioned|stated|told|expressed|revealed|admitted|emphasized|clarified|added|continued|concluded)`. -/
def verbAlt : RE := altRE
  (["said", "explained", "noted", "shared", "mentioned", "stated", "told",
    "expressed", "revealed", "admitted", "emphasized", "clarified", "added",
    "continued", "concluded"].map strCI)

/-- `[^"]` -/
def notQuoteCls : RE := RE.cls (fun c => c ≠ '"')

/-- `[^\.]` -/
def notDotCls : RE := RE.cls (fun c => c ≠ '.')

/-- `\s` -/
def wsCls : RE := RE.cls isSpaceChar

/-- Pattern 1:
`/"([^"]{20,}?),"?\s+([^\.]+(?:said|…|concluded)[^\.]*\.)/gi`. -/
def reA : RE := catRE [
  chCI '"',
  RE.grp 1 (RE.rep 20 true notQuoteCls),
  chCI ',',
  RE.alt (chCI '"') RE.eps,
  RE.rep 1 false wsCls,
  RE.grp 2 (catRE [
    RE.rep 1 false notDotCls,
    verbAlt,
    RE.rep 0 false notDotCls,
    chCI '.'])]

/-- Pattern 2:
`/([^\.]+(?:said|…|concluded)[^:]*?):\s*"([^"]{20,}?)"/gi`. -/
def reB : RE := catRE [
  RE.grp 1 (catRE [
    RE.rep 1 false notDotCls,
    verbAlt,
    RE.rep 0 true (RE.cls (fun c => c ≠ ':'))]),
  chCI ':',
  RE.rep 0 false wsCls,
  chCI '"',
  RE.grp 2 (RE.rep 20 true notQuoteCls),
  chCI '"']

/-- Pattern 3: `/"([^"]{20,}?)"\s*[-–—]\s*([^\.]+)/gi`. -/
def reC : RE := catRE [
  chCI '"',
  RE.grp 1 (RE.rep 20 true notQuoteCls),
  chCI '"',
  RE.rep 0 false wsCls,
  RE.cls (fun c => c = '-' || c = '–' || c = '—'),
  RE.rep 0 false wsCls,
  RE.grp 2 (RE.rep 1 false notDotCls)]

/-- Pattern 4: `/(?:according to|as)\s+([^,]+),?\s*"([^"]{20,}?)"/gi`. -/
def reD : RE := catRE [
  RE.alt (strCI "according to") (strCI "as"),
  RE.rep 1 false wsCls,
  RE.grp 1 (RE.rep 1 false (RE.cls (fun c => c ≠ ','))),
  RE.alt (chCI ',') RE.eps,
  RE.rep 0 false wsCls,
  chCI '"',
  RE.grp 2 (RE.rep 20 true notQuoteCls),
  chCI '"']

/-! ## The quote extractor and the verification run -/

/-- One entry of `extractQuotesFromDraft`'s result:
`{ text, attribution, fullContext }`. -/
structure QuotedSpanE where
  text : List Char
  attribution : List Char
  fullContext : List Char
deriving DecidableEq

/-- A pattern together with the branch flag
`pattern.source.includes('said|explained')` (true exactly for patterns 1
and 2). -/
structure QuotePattern where
  re : RE
  saidHeuristic : Bool

/-- The `quotePatterns` array. -/
def quotePatterns : List QuotePattern :=
  [⟨reA, true⟩, ⟨reB, true⟩, ⟨reC, false⟩, ⟨reD, false⟩]

/-- `match[i]` as a string: the capture's slice of the draft (an
unparticipating group is `undefined` in JavaScript; both are falsy, and
the four patterns' groups always participate, so `[]` models both). -/
def capSlice (draft : List Char) : Option (Nat × Nat) → List Char
  | some (s, e) => substringJS draft s e
  | none => []

/-- The body of the `while` loop of `extractQuotesFromDraft` for one
pattern: context window of 150 characters, the `said|explained` longer-
fragment heuristic for patterns 1 and 2, the `match[2] || match[1]`
fallbacks otherwise, and the
`quotedText && quotedText.length >= 20 && attribution` guard. -/
def extractFromPattern (p : QuotePattern) (draftText : List Char) :
    List QuotedSpanE :=
  (execAll p.re draftText).filterMap fun m =>
    let contextStart := m.index - 150
    let contextEnd := min draftText.length (m.stop + 150)
    let fullContext := trimWS (substringJS draftText contextStart contextEnd)
    let m1 := capSlice draftText m.caps.c1
    let m2 := capSlice draftText m.caps.c2
    let qa :=
      if p.saidHeuristic then
        if m2.length < m1.length then (m1, m2) else (m2, m1)
      else
        (if m2 ≠ [] then m2 else m1, if m1 ≠ [] then m1 else m2)
    if qa.1 ≠ [] ∧ 20 ≤ qa.1.length ∧ qa.2 ≠ [] then
      some ⟨trimWS qa.1, trimWS qa.2, fullContext⟩
    else none

/-- `extractQuotesFromDraft(draftText)`: the four patterns in order, each
pattern's matches in `exec` order, pushed into one list. -/
def extractQuotesFromDraft (draftText : List Char) : List QuotedSpanE :=
  (quotePatterns.map (fun p => extractFromPattern p draftText)).flatten

/-- One `QuoteVerification` record as `verifyQuotes` assembles it.  The
source's `id` is the string `` `quote-${i + 1}` ``; the numeric part is
kept. -/
structure QuoteVerification where
  id : Nat
  quotedText : List Char
  attribution : List Char
  originalSource : Option (List Char)
  isVerified : Bool
  matchType : MatchType
  confidence : ℚ
  transcriptSnippet : Option (List Char)
  startIndex : Option Nat
  endIndex : Option Nat
deriving DecidableEq

/-- The record-assembly loop of `verifyQuotes`: one record per extracted
quote, in input order, with `isVerified: verification.confidence >= 50`. -/
def buildVerifications (quotes : List QuotedSpanE) (transcript : List Char) :
    List QuoteVerification :=
  quotes.enum.map fun iq =>
    let v := findQuoteInTranscript iq.2.text transcript
    ⟨iq.1 + 1, iq.2.text, iq.2.attribution, v.matched,
      decide (50 ≤ v.confidence), v.matchType, v.confidence, v.snippet,
      v.startIndex, v.endIndex⟩

/-- `verifyQuotes` (its pure result): extract, then verify each quote
against the transcript. -/
def verifyQuotes (draft transcript : List Char) : List QuoteVerification :=
  buildVerifications (extractQuotesFromDraft draft) transcript

/-! ## Basic lemmas about the string primitives -/

/-- A fold whose step never changes the accumulator returns the start value. -/
theorem foldl_fixed {α β : Type} (f : β → α → β) (l : List α) (b : β)
    (h : ∀ b' x, x ∈ l → f b' x = b') : l.foldl f b = b := by
  induction l generalizing b with
  | nil => rfl
  | cons x xs ih =>
    rw [List.foldl_cons, h b x (by simp)]
    exact ih b (fun b' y hy => h b' y (by simp [hy]))

/-- `findSub` succeeds exactly on contiguous substrings. -/
theorem findSub_isSome_iff (hay needle : List Char) :
    (findSub hay needle).isSome ↔ needle <:+: hay := by
  induction hay with
  | nil =>
    by_cases h : needle.isPrefixOf ([] : List Char)
    · have := List.isPrefixOf_iff_prefix.mp h
      simp [findSub, h, List.infix_nil, List.prefix_nil.mp this]
    · have : ¬ needle <+: [] := fun hp => h (List.isPrefixOf_iff_prefix.mpr hp)
      simp [findSub, h, List.infix_nil]
      rintro rfl
      exact this (List.prefix_refl [])
  | cons c rest ih =>
    by_cases h : needle.isPrefixOf (c :: rest)
    · simp only [findSub, h, if_true, Option.isSome_some, true_iff]
      exact (List.isPrefixOf_iff_prefix.mp h).isInfix
    · have hnp : ¬ needle <+: c :: rest :=
        fun hp => h (List.isPrefixOf_iff_prefix.mpr hp)
      have e : findSub (c :: rest) needle = (findSub rest needle).map (· + 1) := by
        simp [findSub, h]
      rw [e, Option.isSome_map', ih, List.infix_cons_iff]
      simp [hnp]

/-- `findSub` fails exactly off contiguous substrings. -/
theorem findSub_eq_none_iff (hay needle : List Char) :
    findSub hay needle = none ↔ ¬ needle <:+: hay := by
  rw [← findSub_isSome_iff, Option.not_isSome_iff_eq_none]

/-- Searching for the empty needle succeeds at index 0 (JavaScript
`indexOf("") === 0`). -/
theorem findSub_nil_needle (hay : List Char) : findSub hay [] = some 0 := by
  cases hay <;> simp [findSub, List.isPrefixOf]

/-- `split` never returns an empty list. -/
theorem splitCh_ne_nil (c : Char) (l : List Char) : splitCh c l ≠ [] := by
  cases l with
  | nil => simp [splitCh]
  | cons d rest =>
    by_cases h : d = c
    · simp [splitCh, h]
    · simp only [splitCh, h, if_false]
      cases splitCh c rest <;> simp

/-- `joinSep` on a list of at least two words. -/
theorem joinSep_cons₂ (sep : List Char) (w x : List Char) (xs : List (List Char)) :
    joinSep sep (w :: x :: xs) = w ++ sep ++ joinSep sep (x :: xs) := rfl

/-- Joining with the separator undoes splitting on it
(`arr.split(c).join(c) === arr`). -/
theorem joinSep_splitCh (c : Char) (l : List Char) :
    joinSep [c] (splitCh c l) = l := by
  induction l with
  | nil => rfl
  | cons d rest ih =>
    by_cases h : d = c
    · subst h
      obtain ⟨w, ws, hw⟩ := List.exists_cons_of_ne_nil (splitCh_ne_nil d rest)
      simp only [splitCh, if_true]
      rw [hw, joinSep_cons₂, ← hw, ih]
      simp
    · simp only [splitCh, h, if_false]
      obtain ⟨w, ws, hw⟩ := List.exists_cons_of_ne_nil (splitCh_ne_nil c rest)
      rw [hw]
      cases ws with
      | nil =>
        have : joinSep [c] (splitCh c rest) = rest := ih
        rw [hw] at this
        simpa [joinSep] using congrArg (d :: ·) this
      | cons x xs =>
        have : joinSep [c] (splitCh c rest) = rest := ih
        rw [hw, joinSep_cons₂] at this
        rw [joinSep_cons₂]
        simpa using congrArg (d :: ·) this

/-- `joinSep` over an append of two nonempty lists. -/
theorem joinSep_append (sep : List Char) (xs ys : List (List Char))
    (hx : xs ≠ []) (hy : ys ≠ []) :
    joinSep sep (xs ++ ys) = joinSep sep xs ++ sep ++ joinSep sep ys := by
  induction xs with
  | nil => exact absurd rfl hx
  | cons x xs ih =>
    cases xs with
    | nil =>
      obtain ⟨y, ys', rfl⟩ := List.exists_cons_of_ne_nil hy
      simp [joinSep_cons₂, joinSep]
    | cons x' xs' =>
      have e1 : (x :: x' :: xs') ++ ys = x :: x' :: (xs' ++ ys) := by simp
      have e2 : (x' :: xs') ++ ys = x' :: (xs' ++ ys) := by simp
      rw [e1, joinSep_cons₂, ← e2, ih (by simp), joinSep_cons₂]
      simp

/-! ## Substring-monotonicity of the normalization

The key fact for the exact round-trip claim: normalizing a contiguous
substring of `T` yields a contiguous substring of `normalizeText T`. -/

/-- The whitespace-run flag after `collapseWS` has consumed `u`. -/
def wsFlag : Bool → List Char → Bool
  | f, [] => f
  | _, c :: rest => wsFlag (isSpaceChar c) rest

/-- `collapseWS` processes an append left to right. -/
theorem collapseWS_append (f : Bool) (u v : List Char) :
    collapseWS f (u ++ v) = collapseWS f u ++ collapseWS (wsFlag f u) v := by
  induction u generalizing f with
  | nil => rfl
  | cons c u ih =>
    by_cases hc : isSpaceChar c
    · cases f <;> simp [collapseWS, wsFlag, hc, ih]
    · cases f <;> simp [collapseWS, wsFlag, hc, ih]

/-- `collapseWS true` output never starts with whitespace. -/
theorem collapseWS_true_dropWhile (u : List Char) :
    (collapseWS true u).dropWhile isSpaceChar = collapseWS true u := by
  induction u with
  | nil => rfl
  | cons c rest ih =>
    by_cases hc : isSpaceChar c
    · simp [collapseWS, hc, ih]
    · simp [collapseWS, hc]


/-- Starting in-run equals starting fresh and dropping the leading space. -/
theorem collapseWS_true_eq (u : List Char) :
    collapseWS true u = (collapseWS false u).dropWhile isSpaceChar := by
  induction u with
  | nil => rfl
  | cons c rest ih =>
    by_cases hc : isSpaceChar c
    · have e : collapseWS false (c :: rest) = ' ' :: collapseWS true rest := by
        simp [collapseWS, hc]
      have e2 : collapseWS true (c :: rest) = collapseWS true rest := by
        simp [collapseWS, hc]
      rw [e2, e, List.dropWhile_cons]
      simp [show isSpaceChar ' ' = true from rfl, collapseWS_true_dropWhile]
    · simp [collapseWS, hc]

/-- Dropping trailing whitespace yields a prefix. -/
theorem dropTrailingWS_isPre (y : List Char) : dropTrailingWS y <+: y := by
  have h : (y.reverse.dropWhile isSpaceChar) <:+ y.reverse :=
    List.dropWhile_suffix isSpaceChar
  have := List.reverse_prefix.mpr h
  simpa [dropTrailingWS] using this

/-- `trimWS` is a prefix of the leading-whitespace-stripped list. -/
theorem trimWS_isPre_drop (y : List Char) :
    trimWS y <+: y.dropWhile isSpaceChar := dropTrailingWS_isPre _

/-- `trimWS y` is a contiguous substring of `y`. -/
theorem trimWS_isInfix_self (y : List Char) : trimWS y <:+: y :=
  (trimWS_isPre_drop y).isInfix.trans (List.dropWhile_suffix isSpaceChar).isInfix

/-- The head of a `dropWhile p` output fails `p`. -/
theorem head?_dropWhile_false (p : Char → Bool) (l : List Char) :
    ∀ a, (l.dropWhile p).head? = some a → p a = false := by
  induction l with
  | nil => simp
  | cons c rest ih =>
    by_cases hc : p c
    · simpa [List.dropWhile_cons, hc] using ih
    · simp only [List.dropWhile_cons, hc, if_false, List.head?_cons]
      rintro a ha
      obtain rfl : c = a := by simpa using ha
      simpa using hc

/-- An infix whose head does not satisfy `p` survives `dropWhile p`. -/
theorem infix_dropWhile_of_head (p : Char → Bool) (x y : List Char)
    (hxy : x <:+: y) (hx : ∀ a, x.head? = some a → p a = false) :
    x <:+: y.dropWhile p := by
  rcases x with _ | ⟨a, x'⟩
  · exact List.nil_infix
  · have ha : p a = false := hx a rfl
    obtain ⟨s, t, rfl⟩ := hxy
    rw [List.append_assoc, List.dropWhile_append]
    by_cases hs : (s.dropWhile p).isEmpty
    · simp only [hs, if_true]
      rw [List.cons_append, List.dropWhile_cons, ha]
      exact ⟨[], t, by simp⟩
    · simp only [hs, if_false]
      exact ⟨s.dropWhile p, t, by simp⟩

/-- An infix whose last element is not whitespace survives `dropTrailingWS`. -/
theorem infix_dropTrailing_of_last (x y : List Char)
    (hxy : x <:+: y)
    (hx : ∀ a, x.reverse.head? = some a → isSpaceChar a = false) :
    x <:+: dropTrailingWS y := by
  have h1 : x.reverse <:+: y.reverse := List.reverse_infix.mpr hxy
  have h2 : x.reverse <:+: y.reverse.dropWhile isSpaceChar :=
    infix_dropWhile_of_head isSpaceChar _ _ h1 hx
  have h3 : x.reverse.reverse <:+: (y.reverse.dropWhile isSpaceChar).reverse :=
    List.reverse_infix.mpr (by simpa using h2)
  simpa [dropTrailingWS] using h3

/-- An infix with no whitespace at either end survives `trimWS`. -/
theorem infix_trimWS (x y : List Char) (hxy : x <:+: y)
    (hhead : ∀ a, x.head? = some a → isSpaceChar a = false)
    (hlast : ∀ a, x.reverse.head? = some a → isSpaceChar a = false) :
    x <:+: trimWS y :=
  infix_dropTrailing_of_last x _
    (infix_dropWhile_of_head isSpaceChar x y hxy hhead) hlast

/-- The head of a `trimWS` output is not whitespace. -/
theorem trimWS_head? (y : List Char) :
    ∀ a, (trimWS y).head? = some a → isSpaceChar a = false := by
  intro a ha
  obtain ⟨t, ht⟩ := trimWS_isPre_drop y
  cases hz : trimWS y with
  | nil => rw [hz] at ha; simp at ha
  | cons b l =>
    rw [hz] at ha
    have hba : b = a := by simpa using ha
    apply head?_dropWhile_false isSpaceChar y a
    rw [← ht, hz]
    simp [hba]

/-- The last element of a `trimWS` output is not whitespace. -/
theorem trimWS_last? (y : List Char) :
    ∀ a, (trimWS y).reverse.head? = some a → isSpaceChar a = false := by
  have e : (trimWS y).reverse =
      ((y.dropWhile isSpaceChar).reverse).dropWhile isSpaceChar := by
    simp [trimWS, dropTrailingWS]
  rw [e]
  exact head?_dropWhile_false isSpaceChar _

/-- The character-level part of the normalization. -/
def sanitizeChar (c : Char) : Char :=
  if isWordChar c || isSpaceChar c then c else ' '

/-- `normalizeText` as a single map followed by collapse and trim. -/
theorem normalizeText_eq (s : List Char) :
    normalizeText s =
      trimWS (collapseWS false (s.map (fun c => sanitizeChar (Char.toLower c)))) := by
  unfold normalizeText
  rw [List.map_map]
  rfl

/-- Normalizing preserves the contiguous-substring relation. -/
theorem normalizeText_mono (Q T : List Char) (hQT : Q <:+: T) :
    normalizeText Q <:+: normalizeText T := by
  rw [normalizeText_eq, normalizeText_eq]
  have hQ' : Q.map (fun c => sanitizeChar (Char.toLower c)) <:+:
      T.map (fun c => sanitizeChar (Char.toLower c)) :=
    hQT.map (fun c => sanitizeChar (Char.toLower c))
  obtain ⟨s, t, hst⟩ := hQ'
  set Q' := Q.map (fun c => sanitizeChar (Char.toLower c)) with hQdef
  set T' := T.map (fun c => sanitizeChar (Char.toLower c)) with hTdef
  have key : collapseWS false T' =
      collapseWS false s ++ collapseWS (wsFlag false s) Q'
        ++ collapseWS (wsFlag (wsFlag false s) Q') t := by
    rw [← hst, List.append_assoc, collapseWS_append, collapseWS_append]
    simp [List.append_assoc]
  have step1 : trimWS (collapseWS false Q') <:+: collapseWS (wsFlag false s) Q' := by
    cases hf : wsFlag false s with
    | false => exact trimWS_isInfix_self _
    | true =>
      rw [collapseWS_true_eq]
      exact (trimWS_isPre_drop _).isInfix
  have step2 : trimWS (collapseWS false Q') <:+: collapseWS false T' := by
    rw [key]
    refine step1.trans ⟨collapseWS false s,
      collapseWS (wsFlag (wsFlag false s) Q') t, by simp [List.append_assoc]⟩
  exact infix_trimWS _ _ step2 (trimWS_head? _) (trimWS_last? _)

/-! ## Helper lemmas about the matcher's tiers -/

/-- A window of at least two words joins to a nonempty string. -/
theorem joinSep_ne_nil_of_two (l : List (List Char)) (h : 2 ≤ l.length) :
    joinSep [' '] l ≠ [] := by
  match l, h with
  | a :: b :: t, _ =>
    rw [joinSep_cons₂]
    simp

/-- If every window tested by tier 2 misses the transcript, tier 2 keeps the
initial best match. -/
theorem tier2_eq_best0 (qw : List (List Char)) (nT oT : List Char)
    (h : ∀ ws i, 3 ≤ ws → ws ≤ min qw.length 8 → i ≤ qw.length - ws →
      findSub nT (joinSep [' '] ((qw.drop i).take ws)) = none) :
    tier2 qw nT oT = best0 := by
  unfold tier2
  apply foldl_fixed
  intro b ws hws
  have hmem := List.mem_reverse.mp hws
  obtain ⟨j, hj, rfl⟩ := List.mem_range'.mp hmem
  have h3 : 3 ≤ 3 + 1 * j := by omega
  have h8 : 3 + 1 * j ≤ min qw.length 8 := by omega
  apply foldl_fixed
  intro b' i hi
  have hile : i ≤ qw.length - (3 + 1 * j) := by
    have := List.mem_range.mp hi
    omega
  simp only [windowStep, h (3 + 1 * j) i h3 h8 hile]

/-- If every long quote word misses the transcript, tier 3 finds nothing. -/
theorem tier3Scan_eq_zero (qw : List (List Char)) (nT oT : List Char)
    (h : ∀ w ∈ qw, 3 < w.length → findSub nT w = none) :
    tier3Scan qw nT oT = ([], 0) := by
  unfold tier3Scan
  apply foldl_fixed
  intro acc w hw
  by_cases hlen : 3 < w.length
  · simp [hlen, h w hw hlen]
  · simp [hlen]

/-- Tier 3 counts exactly the quote words longer than 3 characters that
occur in the transcript, and pushes one segment per counted word. -/
theorem tier3Scan_count (qw : List (List Char)) (nT oT : List Char) :
    (tier3Scan qw nT oT).2 =
        (qw.filter (fun w => 3 < w.length && (findSub nT w).isSome)).length ∧
      (tier3Scan qw nT oT).1.length =
        (qw.filter (fun w => 3 < w.length && (findSub nT w).isSome)).length := by
  unfold tier3Scan
  suffices h : ∀ acc : List Segment × Nat,
      ((qw.foldl (fun (acc : List Segment × Nat) word =>
        if 3 < word.length then
          match findSub nT word with
          | some idx =>
            (acc.1 ++ [⟨idx, idx + word.length,
              substringJS oT idx (idx + word.length)⟩], acc.2 + 1)
          | none => acc
        else acc) acc).2 = acc.2 +
          (qw.filter (fun w => 3 < w.length && (findSub nT w).isSome)).length ∧
      (qw.foldl (fun (acc : List Segment × Nat) word =>
        if 3 < word.length then
          match findSub nT word with
          | some idx =>
            (acc.1 ++ [⟨idx, idx + word.length,
              substringJS oT idx (idx + word.length)⟩], acc.2 + 1)
          | none => acc
        else acc) acc).1.length = acc.1.length +
          (qw.filter (fun w => 3 < w.length && (findSub nT w).isSome)).length) by
    simpa using h ([], 0)
  induction qw with
  | nil => simp
  | cons w rest ih =>
    intro acc
    by_cases hlen : 3 < w.length
    · cases hf : findSub nT w with
      | some idx =>
        have := ih (acc.1 ++ [⟨idx, idx + w.length,
          substringJS oT idx (idx + w.length)⟩], acc.2 + 1)
        simp only [List.foldl_cons, hlen, if_true, hf] at this ⊢
        simp only [List.filter_cons, hlen, hf]
        constructor
        · rw [this.1]; simp; omega
        · rw [this.2]; simp; omega
      | none =>
        have := ih acc
        simp only [List.foldl_cons, hlen, if_true, hf] at this ⊢
        simp only [List.filter_cons, hlen, hf]
        constructor
        · rw [this.1]; simp
        · rw [this.2]; simp
    · have := ih acc
      simp only [List.foldl_cons, hlen, if_false] at this ⊢
      simp only [List.filter_cons, hlen]
      simpa using this

/-! ## Claim C2: exact round trip -/

/-- C2: for any transcript `T` and any contiguous substring `Q` of `T` of
length at least 20, the matcher returns `matchKind = EXACT` with
confidence 100. -/
theorem exact_round_trip (T Q : List Char) (hsub : Q <:+: T)
    (hlen : 20 ≤ Q.length) :
    (findQuoteInTranscript Q T).matchType = MatchType.exact ∧
      (findQuoteInTranscript Q T).confidence = 100 := by
  have hinf : normalizeText Q <:+: normalizeText T := normalizeText_mono Q T hsub
  have hsome : (findSub (normalizeText T) (normalizeText Q)).isSome :=
    (findSub_isSome_iff _ _).mpr hinf
  obtain ⟨i, hi⟩ := Option.isSome_iff_exists.mp hsome
  simp [findQuoteInTranscript, hi]

/-- Witness for C2 at a concrete transcript and substring. -/
theorem exact_round_trip_witness :
    "hello world, this is a test!".toList <:+:
        "xx hello world, this is a test! yy".toList ∧
      20 ≤ "hello world, this is a test!".toList.length ∧
      (findQuoteInTranscript "hello world, this is a test!".toList
          "xx hello world, this is a test! yy".toList).matchType =
        MatchType.exact ∧
      (findQuoteInTranscript "hello world, this is a test!".toList
          "xx hello world, this is a test! yy".toList).confidence = 100 := by
  have h1 : "hello world, this is a test!".toList <:+:
      "xx hello world, this is a test! yy".toList :=
    ⟨"xx ".toList, " yy".toList, by decide⟩
  have h2 : 20 ≤ "hello world, this is a test!".toList.length := by decide
  obtain ⟨ha, hb⟩ := exact_round_trip _ _ h1 h2
  exact ⟨h1, h2, ha, hb⟩

/-! ## Claim C10: a quote normalizing to the empty string matches exactly -/

/-- C10: for every transcript (including the empty one), a quote whose
normalized form is empty yields `matchKind = EXACT` with confidence 100,
because the empty normalized quote is contained in every normalized
transcript. -/
theorem empty_quote_exact (transcript quote : List Char)
    (h : normalizeText quote = []) :
    (findQuoteInTranscript quote transcript).matchType = MatchType.exact ∧
      (findQuoteInTranscript quote transcript).confidence = 100 := by
  have h0 : findSub (normalizeText transcript) (normalizeText quote) = some 0 := by
    rw [h]
    exact findSub_nil_needle _
  simp [findQuoteInTranscript, h0]

/-- Witness for C10: the punctuation-only quote `"?!"` against the empty
transcript. -/
theorem empty_quote_exact_witness :
    normalizeText "?!".toList = [] ∧
      (findQuoteInTranscript "?!".toList []).matchType = MatchType.exact ∧
      (findQuoteInTranscript "?!".toList []).confidence = 100 := by
  have h : normalizeText "?!".toList = [] := by decide
  obtain ⟨ha, hb⟩ := empty_quote_exact [] "?!".toList h
  exact ⟨h, ha, hb⟩

/-! ## Claim C9: empty transcript -/

/-- C9 counterexample: the quote `"!!!"` (whose normalized form is empty)
against the empty transcript returns `EXACT`, not `NOT_FOUND`, so the claim
fails for quotes that normalize to the empty string. -/
theorem empty_transcript_cex :
    (findQuoteInTranscript "!!!".toList []).matchType ≠ MatchType.notFound ∧
      (findQuoteInTranscript "!!!".toList []).matchType = MatchType.exact := by
  decide

/-- C9 amended: for every quote whose NORMALIZED form is nonempty, matching
against the empty transcript returns `NOT_FOUND`. -/
theorem empty_transcript_not_found (quote : List Char)
    (h : normalizeText quote ≠ []) :
    (findQuoteInTranscript quote []).matchType = MatchType.notFound := by
  have e0 : normalizeText ([] : List Char) = [] := rfl
  have h1 : findSub (normalizeText ([] : List Char)) (normalizeText quote) = none := by
    rw [e0]
    exact (findSub_eq_none_iff _ _).mpr (by rw [List.infix_nil]; exact h)
  have h2 : tier2 (splitCh ' ' (normalizeText quote))
      (normalizeText ([] : List Char)) [] = best0 := by
    rw [e0]
    apply tier2_eq_best0
    intro ws i h3 h8 hile
    apply (findSub_eq_none_iff _ _).mpr
    rw [List.infix_nil]
    apply joinSep_ne_nil_of_two
    rw [List.length_take, List.length_drop]
    omega
  have h3 : tier3Scan (splitCh ' ' (normalizeText quote))
      (normalizeText ([] : List Char)) [] = ([], 0) := by
    rw [e0]
    apply tier3Scan_eq_zero
    intro w _ hw
    apply (findSub_eq_none_iff _ _).mpr
    rw [List.infix_nil]
    intro hnil
    rw [hnil] at hw
    simp at hw
  simp only [findQuoteInTranscript, h1, h2, h3]
  norm_num [best0, mergeTier3, h3, classify, notFoundResult]

/-- Witness for the amended C9 at a concrete quote. -/
theorem empty_transcript_not_found_witness :
    normalizeText "hello there world".toList ≠ [] ∧
      (findQuoteInTranscript "hello there world".toList []).matchType =
        MatchType.notFound := by
  have h : normalizeText "hello there world".toList ≠ [] := by decide
  exact ⟨h, empty_transcript_not_found _ h⟩

/-! ## Claim C1: offsets and snippet against the original transcript -/

/-- The failing input for C1. -/
def quoteC1 : List Char := "the quick brown fox jumps over it".toList

/-- The failing transcript for C1: the `!!!` run collapses under
normalization, shifting every later index by two. -/
def transcriptC1 : List Char := "Hey!!! the quick brown fox jumps over it".toList

/-- C1 fails on the code: the matcher reports an EXACT match, but the
snippet it cuts from the original transcript at the normalized-transcript
offsets is `"!! the quick brown fox jumps over"`, which does not correspond
to the matched region (its normalized form differs from the normalized
quote).  The code never maps offsets back to the original text. -/
theorem exact_snippet_misaligned :
    (findQuoteInTranscript quoteC1 transcriptC1).matchType = MatchType.exact ∧
      (findQuoteInTranscript quoteC1 transcriptC1).snippet =
        some "!! the quick brown fox jumps over".toList ∧
      normalizeText "!! the quick brown fox jumps over".toList ≠
        normalizeText quoteC1 := by
  refine ⟨by decide, by decide, by decide⟩

/-! ## Confidence bounds (for claim C7) -/

/-- A fold preserves an invariant preserved by every step. -/
theorem foldl_preserve {α β : Type} (P : β → Prop) (f : β → α → β)
    (l : List α) (b : β) (h0 : P b)
    (h : ∀ b' x, x ∈ l → P b' → P (f b' x)) : P (l.foldl f b) := by
  induction l generalizing b with
  | nil => exact h0
  | cons x xs ih =>
    rw [List.foldl_cons]
    exact ih (f b x) (h b x (by simp) h0)
      (fun b' y hy => h b' y (by simp [hy]))

/-- Tier 2 only ever produces confidences between 0 and 100. -/
theorem tier2_conf_bounds (qw : List (List Char)) (nT oT : List Char) :
    0 ≤ (tier2 qw nT oT).confidence ∧ (tier2 qw nT oT).confidence ≤ 100 := by
  unfold tier2
  apply foldl_preserve (P := fun b : BestMatch =>
    0 ≤ b.confidence ∧ b.confidence ≤ 100)
  · constructor <;> norm_num [best0]
  · intro b ws hws hb
    obtain ⟨j, hj, rfl⟩ := List.mem_range'.mp (List.mem_reverse.mp hws)
    have hwsL : 3 + 1 * j ≤ qw.length := by omega
    apply foldl_preserve (P := fun b : BestMatch =>
      0 ≤ b.confidence ∧ b.confidence ≤ 100)
    · exact hb
    · intro b' i hi hb'
      simp only [windowStep]
      cases hf : findSub nT (joinSep [' '] ((qw.drop i).take (3 + 1 * j))) with
      | none => exact hb'
      | some idx =>
        by_cases hc : b'.confidence <
            ((3 + 1 * j : Nat) : ℚ) / (qw.length : ℚ) * 100
        · simp only [hc, if_true]
          have hLpos : (0 : ℚ) < (qw.length : ℚ) := by
            have : 0 < qw.length := by omega
            exact_mod_cast this
          have hdiv : ((3 + 1 * j : Nat) : ℚ) / (qw.length : ℚ) ≤ 1 := by
            rw [div_le_one hLpos]
            exact_mod_cast hwsL
          have hd0 : (0 : ℚ) ≤ ((3 + 1 * j : Nat) : ℚ) / (qw.length : ℚ) := by
            positivity
          constructor
          · show (0 : ℚ) ≤ ((3 + 1 * j : Nat) : ℚ) / (qw.length : ℚ) * 100
            positivity
          · show ((3 + 1 * j : Nat) : ℚ) / (qw.length : ℚ) * 100 ≤ 100
            nlinarith
        · simp only [hc, if_false]
          exact hb'

/-- The tier-3 merge keeps confidences between 0 and 100. -/
theorem mergeTier3_bounds (qw : List (List Char)) (nT oT : List Char)
    (b : BestMatch) (hb : 0 ≤ b.confidence ∧ b.confidence ≤ 100)
    (hL : 0 < qw.length) :
    0 ≤ (mergeTier3 qw nT oT b).confidence ∧
      (mergeTier3 qw nT oT b).confidence ≤ 100 := by
  have e : mergeTier3 qw nT oT b =
      if b.confidence < 50 then
        if 0 < (tier3Scan qw nT oT).1.length then
          if b.confidence < ((tier3Scan qw nT oT).2 : ℚ) / (qw.length : ℚ) * 80 then
            ⟨[], ((tier3Scan qw nT oT).2 : ℚ) / (qw.length : ℚ) * 80,
              (tier3Scan qw nT oT).1⟩
          else b
        else b
      else b := rfl
  rw [e]
  split_ifs with h50 hseg hconf
  · have hcount := (tier3Scan_count qw nT oT).1
    have hfle : (qw.filter
        (fun w => 3 < w.length && (findSub nT w).isSome)).length ≤ qw.length :=
      List.length_filter_le _ _
    have hLpos : (0 : ℚ) < (qw.length : ℚ) := by exact_mod_cast hL
    have hdiv : ((tier3Scan qw nT oT).2 : ℚ) / (qw.length : ℚ) ≤ 1 := by
      rw [div_le_one hLpos, hcount]
      exact_mod_cast hfle
    have hd0 : (0 : ℚ) ≤ ((tier3Scan qw nT oT).2 : ℚ) / (qw.length : ℚ) := by
      positivity
    constructor
    · show (0 : ℚ) ≤ ((tier3Scan qw nT oT).2 : ℚ) / (qw.length : ℚ) * 80
      positivity
    · show ((tier3Scan qw nT oT).2 : ℚ) / (qw.length : ℚ) * 80 ≤ 100
      nlinarith
  · exact hb
  · exact hb
  · exact hb

/-- `classify` reports the best match's confidence or zero. -/
theorem classify_confidence (b : BestMatch) :
    (classify b).confidence = b.confidence ∨ (classify b).confidence = 0 := by
  unfold classify
  by_cases h30 : 30 ≤ b.confidence
  · simp only [h30, if_true]
    by_cases hseg : 1 < b.segments.length
    · left
      simp only [hseg, if_true]
    · simp only [hseg, if_false]
      cases hs : b.segments with
      | nil => right; rfl
      | cons s t =>
        cases t with
        | nil => left; rfl
        | cons s' t' =>
          rw [hs] at hseg
          simp at hseg
  · simp only [h30, if_false]
    right
    rfl

/-- When the full normalized quote is absent from the transcript, every
tier-2 window confidence stays strictly below 100. -/
theorem tier2_conf_lt_100 (qw : List (List Char)) (nT oT : List Char)
    (hnone : findSub nT (joinSep [' '] qw) = none) :
    (tier2 qw nT oT).confidence < 100 := by
  unfold tier2
  apply foldl_preserve (P := fun b : BestMatch => b.confidence < 100)
  · norm_num [best0]
  · intro b ws hws hb
    obtain ⟨j, hj, rfl⟩ := List.mem_range'.mp (List.mem_reverse.mp hws)
    have hwsL : 3 + 1 * j ≤ qw.length := by omega
    apply foldl_preserve (P := fun b : BestMatch => b.confidence < 100)
    · exact hb
    · intro b' i hi hb'
      simp only [windowStep]
      cases hf : findSub nT (joinSep [' '] ((qw.drop i).take (3 + 1 * j))) with
      | none => exact hb'
      | some idx =>
        have hile : i ≤ qw.length - (3 + 1 * j) := by
          have := List.mem_range.mp hi
          omega
        by_cases heq : 3 + 1 * j = qw.length
        · exfalso
          have hi0 : i = 0 := by omega
          rw [hi0, List.drop_zero, heq, List.take_length] at hf
          rw [hnone] at hf
          exact Option.noConfusion hf
        · have hlt : 3 + 1 * j < qw.length := by omega
          by_cases hc : b'.confidence <
              ((3 + 1 * j : Nat) : ℚ) / (qw.length : ℚ) * 100
          · simp only [hc, if_true]
            show ((3 + 1 * j : Nat) : ℚ) / (qw.length : ℚ) * 100 < 100
            have hLpos : (0 : ℚ) < (qw.length : ℚ) := by
              have : 0 < qw.length := by omega
              exact_mod_cast this
            have hdiv : ((3 + 1 * j : Nat) : ℚ) / (qw.length : ℚ) < 1 := by
              rw [div_lt_one hLpos]
              exact_mod_cast hlt
            nlinarith
          · simp only [hc, if_false]
            exact hb'

/-- The tier-3 merge keeps strict sub-100 confidences. -/
theorem mergeTier3_lt_100 (qw : List (List Char)) (nT oT : List Char)
    (b : BestMatch) (hb : b.confidence < 100) (hL : 0 < qw.length) :
    (mergeTier3 qw nT oT b).confidence < 100 := by
  have e : mergeTier3 qw nT oT b =
      if b.confidence < 50 then
        if 0 < (tier3Scan qw nT oT).1.length then
          if b.confidence < ((tier3Scan qw nT oT).2 : ℚ) / (qw.length : ℚ) * 80 then
            ⟨[], ((tier3Scan qw nT oT).2 : ℚ) / (qw.length : ℚ) * 80,
              (tier3Scan qw nT oT).1⟩
          else b
        else b
      else b := rfl
  rw [e]
  split_ifs with h50 hseg hconf
  · have hcount := (tier3Scan_count qw nT oT).1
    have hfle : (qw.filter
        (fun w => 3 < w.length && (findSub nT w).isSome)).length ≤ qw.length :=
      List.length_filter_le _ _
    have hLpos : (0 : ℚ) < (qw.length : ℚ) := by exact_mod_cast hL
    have hdiv : ((tier3Scan qw nT oT).2 : ℚ) / (qw.length : ℚ) ≤ 1 := by
      rw [div_le_one hLpos, hcount]
      exact_mod_cast hfle
    have hd0 : (0 : ℚ) ≤ ((tier3Scan qw nT oT).2 : ℚ) / (qw.length : ℚ) := by
      positivity
    show ((tier3Scan qw nT oT).2 : ℚ) / (qw.length : ℚ) * 80 < 100
    nlinarith
  · exact hb
  · exact hb
  · exact hb

/-- `classify` never reports an exact match. -/
theorem classify_ne_exact (b : BestMatch) :
    (classify b).matchType ≠ MatchType.exact := by
  unfold classify
  by_cases h30 : 30 ≤ b.confidence
  · simp only [h30, if_true]
    by_cases hseg : 1 < b.segments.length
    · simp only [hseg, if_true]
      by_cases h70 : 70 ≤ b.confidence <;> simp [h70]
    · simp only [hseg, if_false]
      cases hs : b.segments with
      | nil => simp [notFoundResult]
      | cons s t =>
        cases t with
        | nil =>
          by_cases h70 : 70 ≤ b.confidence <;> simp [h70]
        | cons s' t' =>
          rw [hs] at hseg
          simp at hseg
  · simp only [h30, if_false]
    simp [notFoundResult]

/-! ## Claim C7: monotonicity -/

/-- The original ten-word quote for the C7 counterexample. -/
def quoteC7 : List Char :=
  "alpha bravo charlie delta echo foxtrot golf hotel india juliet".toList

/-- The truncation of `quoteC7` to its first six words. -/
def quoteC7cut : List Char :=
  "alpha bravo charlie delta echo foxtrot".toList

/-- The C7 transcript: it contains the five-word run
`alpha … echo` and, separately, `juliet`. -/
def transcriptC7 : List Char :=
  "alpha bravo charlie delta echo zebra yankee xray juliet".toList

set_option maxRecDepth 100000 in
/-- C7 fails on the code: truncating the quote — which removes the word
`juliet`, a word that does occur in the transcript, so the overlap strictly
shrinks — RAISES the confidence from 50 to 250/3 ≈ 83.3, because tier-2
confidence is the matched window size relative to the quote's word count. -/
theorem monotonicity_cex :
    quoteC7 = quoteC7cut ++ " golf hotel india juliet".toList ∧
      (findSub (normalizeText transcriptC7) "juliet".toList).isSome = true ∧
      (findQuoteInTranscript quoteC7 transcriptC7).confidence = 50 ∧
      (findQuoteInTranscript quoteC7cut transcriptC7).confidence = 250 / 3 ∧
      (findQuoteInTranscript quoteC7 transcriptC7).confidence <
        (findQuoteInTranscript quoteC7cut transcriptC7).confidence := by
  refine ⟨by decide, by decide, ?_, ?_, ?_⟩ <;> with_unfolding_all decide

/-- C7 amended: monotonicity does not hold (see `monotonicity_cex`); the
bound that does hold is that every reported confidence lies in `[0, 100]`,
and the maximum 100 is attained exactly on tier-1 exact containment. -/
theorem confidence_bounded_max_exact (quote transcript : List Char) :
    0 ≤ (findQuoteInTranscript quote transcript).confidence ∧
      (findQuoteInTranscript quote transcript).confidence ≤ 100 ∧
      ((findQuoteInTranscript quote transcript).confidence = 100 ↔
        (findQuoteInTranscript quote transcript).matchType = MatchType.exact) := by
  cases hfs : findSub (normalizeText transcript) (normalizeText quote) with
  | some i =>
    simp only [findQuoteInTranscript, hfs]
    norm_num
  | none =>
    simp only [findQuoteInTranscript, hfs]
    have hL : 0 < (splitCh ' ' (normalizeText quote)).length :=
      List.length_pos.mpr (splitCh_ne_nil _ _)
    have hnone : findSub (normalizeText transcript)
        (joinSep [' '] (splitCh ' ' (normalizeText quote))) = none := by
      rw [joinSep_splitCh]
      exact hfs
    have h2 := tier2_conf_bounds (splitCh ' ' (normalizeText quote))
      (normalizeText transcript) transcript
    have h2lt := tier2_conf_lt_100 (splitCh ' ' (normalizeText quote))
      (normalizeText transcript) transcript hnone
    have h3 := mergeTier3_bounds (splitCh ' ' (normalizeText quote))
      (normalizeText transcript) transcript _ h2 hL
    have h3lt := mergeTier3_lt_100 (splitCh ' ' (normalizeText quote))
      (normalizeText transcript) transcript _ h2lt hL
    have hne := classify_ne_exact (mergeTier3 (splitCh ' ' (normalizeText quote))
      (normalizeText transcript) transcript
      (tier2 (splitCh ' ' (normalizeText quote)) (normalizeText transcript)
        transcript))
    rcases classify_confidence (mergeTier3 (splitCh ' ' (normalizeText quote))
        (normalizeText transcript) transcript
        (tier2 (splitCh ' ' (normalizeText quote)) (normalizeText transcript)
          transcript)) with hc | hc
    · rw [hc]
      refine ⟨h3.1, h3.2, ?_⟩
      constructor
      · intro h100
        exact absurd h100 (ne_of_lt h3lt)
      · intro hex
        exact absurd hex hne
    · rw [hc]
      refine ⟨le_refl 0, by norm_num, ?_⟩
      constructor
      · intro h100
        exact absurd h100 (by norm_num)
      · intro hex
        exact absurd hex hne

/-! ## Claim C3: threshold consistency -/

/-- C3: every `QuoteVerification` record assembled by a verification run
has `isVerified = true` exactly when its confidence is at least 50,
independent of tier and match kind. -/
theorem isVerified_iff_conf50 (draft transcript : List Char)
    (r : QuoteVerification) (hr : r ∈ verifyQuotes draft transcript) :
    r.isVerified = true ↔ 50 ≤ r.confidence := by
  unfold verifyQuotes buildVerifications at hr
  obtain ⟨iq, hmem, rfl⟩ := List.mem_map.mp hr
  simp [decide_eq_true_iff]

/-- A small draft whose single quote pattern 4 extracts. -/
def draftW : List Char := "As Jo, \"exactly twenty chars!\"".toList

/-- A transcript containing that quote verbatim (after normalization). -/
def transcriptW : List Char := "he said exactly twenty chars yes".toList

/-- The one verification record `verifyQuotes draftW transcriptW` produces. -/
def recordW : QuoteVerification :=
  ⟨1, "exactly twenty chars!".toList, "Jo".toList,
    some "exactly twenty chars".toList, true, MatchType.exact, 100,
    some "exactly twenty chars".toList, some 8, some 28⟩

set_option maxRecDepth 100000 in
/-- Evaluation of the verification run on the witness draft. -/
theorem verifyQuotes_draftW : verifyQuotes draftW transcriptW = [recordW] := by
  decide

/-- Witness for C3 at the concrete run on `draftW`. -/
theorem isVerified_iff_conf50_witness :
    recordW ∈ verifyQuotes draftW transcriptW ∧
      (recordW.isVerified = true ↔ 50 ≤ recordW.confidence) := by
  have hm : recordW ∈ verifyQuotes draftW transcriptW := by
    rw [verifyQuotes_draftW]
    simp
  exact ⟨hm, isVerified_iff_conf50 draftW transcriptW recordW hm⟩

/-! ## Claim C8: the tier-3 word-scatter fallback -/

/-- Joining an initial segment yields a prefix of joining the whole list. -/
theorem joinSep_take_pre (l : List (List Char)) (k : Nat) (hk : 0 < k)
    (hkle : k ≤ l.length) :
    joinSep [' '] (l.take k) <+: joinSep [' '] l := by
  by_cases heq : k = l.length
  · rw [heq, List.take_length]
  · have hlt : k < l.length := by omega
    have h1 : l.take k ≠ [] := by
      have hlen : (l.take k).length = k := by
        rw [List.length_take]
        omega
      intro he
      rw [he] at hlen
      simp at hlen
      omega
    have h2 : l.drop k ≠ [] := by
      have hlen : (l.drop k).length = l.length - k := List.length_drop _ _
      intro he
      rw [he] at hlen
      simp at hlen
      omega
    refine ⟨[' '] ++ joinSep [' '] (l.drop k), ?_⟩
    rw [← List.append_assoc, ← joinSep_append [' '] _ _ h1 h2,
      List.take_append_drop]

set_option maxRecDepth 100000 in
/-- C8 fails as stated: with the eight-word quote
`"one two six ten wordA wordB wordC wordD"` and the transcript
`"one nine two nine six nine ten nine"`, exactly 4 of the 8 quote words
appear, scattered, and no 3-word run appears verbatim — yet the matcher
returns `NOT_FOUND`, because the four appearing words are at most 3
characters long and tier 3 skips words of length `<= 3`. -/
theorem scatter_fallback_cex :
    (splitCh ' ' (normalizeText "one two six ten wordA wordB wordC wordD".toList)).length = 8 ∧
      ((splitCh ' ' (normalizeText "one two six ten wordA wordB wordC wordD".toList)).filter
        (fun w => (findSub (normalizeText "one nine two nine six nine ten nine".toList) w).isSome)).length = 4 ∧
      (∀ i ∈ List.range 6,
        ¬ (joinSep [' ']
            (((splitCh ' ' (normalizeText "one two six ten wordA wordB wordC wordD".toList)).drop i).take 3) <:+:
          normalizeText "one nine two nine six nine ten nine".toList)) ∧
      (findQuoteInTranscript "one two six ten wordA wordB wordC wordD".toList
        "one nine two nine six nine ten nine".toList).matchType = MatchType.notFound := by
  refine ⟨by decide, by decide, by decide, ?_⟩
  with_unfolding_all decide

/-- C8 amended: the fallback does engage — for every quote of exactly 8
words and transcript in which exactly 4 of the 8 words appear (scattered:
no 3-word run of the quote occurs verbatim), the matcher returns
`PARAPHRASED`, PROVIDED each of the appearing words is longer than 3
characters (tier 3 skips shorter words; see the counterexample). -/
theorem scatter_fallback_paraphrased (quote transcript : List Char)
    (H1 : (splitCh ' ' (normalizeText quote)).length = 8)
    (H2 : ∀ i ∈ List.range 6,
      ¬ (joinSep [' '] (((splitCh ' ' (normalizeText quote)).drop i).take 3) <:+:
        normalizeText transcript))
    (H3 : ((splitCh ' ' (normalizeText quote)).filter
        (fun w => (findSub (normalizeText transcript) w).isSome)).length = 4)
    (H4 : ∀ w ∈ splitCh ' ' (normalizeText quote),
      (findSub (normalizeText transcript) w).isSome → 3 < w.length) :
    (findQuoteInTranscript quote transcript).matchType =
      MatchType.paraphrased := by
  set qw := splitCh ' ' (normalizeText quote) with hqw
  set nT := normalizeText transcript with hnT
  have window3_not_infix : ∀ i, i < 6 →
      ¬ (joinSep [' '] ((qw.drop i).take 3) <:+: nT) := by
    intro i hi
    exact H2 i (List.mem_range.mpr hi)
  have hnone : findSub nT (normalizeText quote) = none := by
    rw [findSub_eq_none_iff]
    intro hinf
    apply window3_not_infix 0 (by omega)
    have e : normalizeText quote = joinSep [' '] qw :=
      (joinSep_splitCh ' ' (normalizeText quote)).symm
    rw [List.drop_zero]
    exact (joinSep_take_pre qw 3 (by omega) (by omega)).isInfix.trans
      (e ▸ hinf)
  have htier2 : tier2 qw nT transcript = best0 := by
    apply tier2_eq_best0
    intro ws i h3 h8 hile
    rw [findSub_eq_none_iff]
    intro hinf
    apply window3_not_infix i (by omega)
    have htt : ((qw.drop i).take ws).take 3 = (qw.drop i).take 3 := by
      rw [List.take_take]
      congr 1
      omega
    have hlen : ((qw.drop i).take ws).length = ws := by
      rw [List.length_take, List.length_drop]
      omega
    have hpre : joinSep [' '] (((qw.drop i).take ws).take 3) <+:
        joinSep [' '] ((qw.drop i).take ws) := by
      apply joinSep_take_pre
      · omega
      · omega
    rw [htt] at hpre
    exact hpre.isInfix.trans hinf
  have hfilter : (tier3Scan qw nT transcript).2 = 4 := by
    rw [(tier3Scan_count qw nT transcript).1]
    rw [List.filter_congr (fun w hw => ?_), H3]
    cases hfs : (findSub nT w).isSome with
    | true =>
      have := H4 w hw (by rw [hfs])
      simp [this, hfs]
    | false => simp [hfs]
  have hseglen : (tier3Scan qw nT transcript).1.length = 4 := by
    rw [(tier3Scan_count qw nT transcript).2]
    rw [List.filter_congr (fun w hw => ?_), H3]
    cases hfs : (findSub nT w).isSome with
    | true =>
      have := H4 w hw (by rw [hfs])
      simp [this, hfs]
    | false => simp [hfs]
  have hconf40 : ((tier3Scan qw nT transcript).2 : ℚ) / (qw.length : ℚ) * 80
      = 40 := by
    rw [hfilter, H1]
    norm_num
  have hmerge : mergeTier3 qw nT transcript best0 =
      ⟨[], 40, (tier3Scan qw nT transcript).1⟩ := by
    have e : mergeTier3 qw nT transcript best0 =
        if best0.confidence < 50 then
          if 0 < (tier3Scan qw nT transcript).1.length then
            if best0.confidence <
                ((tier3Scan qw nT transcript).2 : ℚ) / (qw.length : ℚ) * 80 then
              ⟨[], ((tier3Scan qw nT transcript).2 : ℚ) / (qw.length : ℚ) * 80,
                (tier3Scan qw nT transcript).1⟩
            else best0
          else best0
        else best0 := rfl
    rw [e, hconf40, if_pos (by norm_num [best0]), if_pos (by rw [hseglen]; omega),
      if_pos (by norm_num [best0])]
  simp only [findQuoteInTranscript, ← hqw, ← hnT, hnone, htier2, hmerge]
  unfold classify
  rw [if_pos (by norm_num), if_pos (by simp [hseglen])]
  simp only
  norm_num

set_option maxRecDepth 100000 in
/-- Witness for the amended C8: an 8-word quote whose 4 appearing words are
all longer than 3 characters yields `PARAPHRASED`. -/
theorem scatter_fallback_paraphrased_witness :
    (findQuoteInTranscript
      "alpha bravo charlie delta echo foxtrot golf hotel".toList
      "alpha nine bravo nine charlie nine delta nine".toList).matchType =
      MatchType.paraphrased := by
  apply scatter_fallback_paraphrased
  · decide
  · decide
  · decide
  · decide

/-! ## Claims C4, C5, C6: the quote extractor -/

/-- A successful scan starting at `pos` reports an index at or after `pos`. -/
theorem firstMatchAux_ge (re : RE) (input : List Char) :
    ∀ fuel pos m, firstMatchAux re input fuel pos = some m → pos ≤ m.index := by
  intro fuel
  induction fuel with
  | zero => intro pos m h; simp [firstMatchAux] at h
  | succ fuel ih =>
    intro pos m h
    simp only [firstMatchAux] at h
    by_cases hle : pos ≤ input.length
    · rw [if_pos hle] at h
      cases hm : matchTop re input pos with
      | some pc =>
        rw [hm] at h
        cases h
        rfl
      | none =>
        rw [hm] at h
        have := ih (pos + 1) m h
        omega
    · rw [if_neg hle] at h
      exact absurd h (by simp)

/-- Unfolding: no match left, loop ends. -/
theorem execAllAux_succ_none (re : RE) (input : List Char) (fuel pos : Nat)
    (h : firstMatchFrom re input pos = none) :
    execAllAux re input (fuel + 1) pos = [] := by
  simp [execAllAux, h]

/-- Unfolding: a progressing match is recorded and the loop resumes at its
end. -/
theorem execAllAux_succ_prog (re : RE) (input : List Char) (fuel pos : Nat)
    (m : RxMatch) (h : firstMatchFrom re input pos = some m)
    (hp : m.index < m.stop) :
    execAllAux re input (fuel + 1) pos = m :: execAllAux re input fuel m.stop := by
  simp [execAllAux, h, hp]

/-- Unfolding: a zero-width match is recorded once and the loop stops. -/
theorem execAllAux_succ_stop (re : RE) (input : List Char) (fuel pos : Nat)
    (m : RxMatch) (h : firstMatchFrom re input pos = some m)
    (hp : ¬ m.index < m.stop) :
    execAllAux re input (fuel + 1) pos = [m] := by
  simp [execAllAux, h, hp]

/-- Every match the `exec` loop reports from `pos` starts at or after `pos`. -/
theorem execAllAux_ge (re : RE) (input : List Char) :
    ∀ fuel pos m, m ∈ execAllAux re input fuel pos → pos ≤ m.index := by
  intro fuel
  induction fuel with
  | zero => intro pos m h; simp [execAllAux] at h
  | succ fuel ih =>
    intro pos m h
    cases hf : firstMatchFrom re input pos with
    | none =>
      rw [execAllAux_succ_none re input fuel pos hf] at h
      simp at h
    | some m0 =>
      have hge : pos ≤ m0.index := firstMatchAux_ge re input _ pos m0 hf
      by_cases hprog : m0.index < m0.stop
      · rw [execAllAux_succ_prog re input fuel pos m0 hf hprog] at h
        rcases List.mem_cons.mp h with rfl | hmem
        · exact hge
        · have := ih m0.stop m hmem
          omega
      · rw [execAllAux_succ_stop re input fuel pos m0 hf hprog] at h
        rcases List.mem_cons.mp h with rfl | hmem
        · exact hge
        · simp at hmem

/-- C5 amended (the order that does hold): within one pattern, the matches
reported by the `exec` loop appear in strictly increasing position order —
i.e. each pattern's quotes are extracted in order of occurrence; the
extractor then concatenates the four patterns' lists in pattern order, not
in global first-occurrence order (see the counterexample). -/
theorem execAll_position_sorted (re : RE) (input : List Char) :
    List.Chain' (fun a b : RxMatch => a.index < b.index) (execAll re input) := by
  unfold execAll
  generalize input.length + 1 = fuel
  have main : ∀ fuel pos, List.Chain' (fun a b : RxMatch => a.index < b.index)
      (execAllAux re input fuel pos) := by
    intro fuel
    induction fuel with
    | zero => intro pos; simp [execAllAux]
    | succ fuel ihf =>
      intro pos
      cases hf : firstMatchFrom re input pos with
      | none =>
        rw [execAllAux_succ_none re input fuel pos hf]
        simp
      | some m0 =>
        by_cases hprog : m0.index < m0.stop
        · rw [execAllAux_succ_prog re input fuel pos m0 hf hprog,
            List.chain'_cons']
          constructor
          · intro b hb
            have hmem : b ∈ execAllAux re input fuel m0.stop :=
              List.mem_of_mem_head? hb
            have := execAllAux_ge re input fuel m0.stop b hmem
            omega
          · exact ihf m0.stop
        · rw [execAllAux_succ_stop re input fuel pos m0 hf hprog]
          simp
  exact main fuel 0

/-- The C5 draft: a pattern-4 quote first, then a pattern-1 quote. -/
def draftC5 : List Char :=
  "As Jo, \"the first quotation appears here\". \"The second quote comes afterwards,\" Mary said to all.".toList

/-- The entry pattern 1 extracts from `draftC5` (it comes later in the
draft but first in the output, because pattern 1 is tried first). -/
def spanC5A : QuotedSpanE :=
  ⟨"The second quote comes afterwards".toList, "Mary said to all.".toList,
    draftC5⟩

/-- The entry pattern 4 extracts from `draftC5` (it comes first in the
draft but last in the output). -/
def spanC5D : QuotedSpanE :=
  ⟨"the first quotation appears here".toList, "Jo".toList, draftC5⟩

set_option maxRecDepth 1000000 in
set_option maxHeartbeats 4000000 in
/-- Evaluation of the extractor on `draftC5`. -/
theorem extract_draftC5 :
    extractQuotesFromDraft draftC5 = [spanC5A, spanC5D] := by
  decide

/-- C5 fails on the code: the extractor's first output entry is the quote
whose first occurrence in the draft is at index 44, and its second entry
the quote occurring at index 8 — the output is ordered by recognition
pattern, not by first occurrence in the draft. -/
theorem extractor_order_cex :
    extractQuotesFromDraft draftC5 = [spanC5A, spanC5D] ∧
      findSub draftC5 spanC5A.text = some 44 ∧
      findSub draftC5 spanC5D.text = some 8 ∧
      (8 : Nat) < 44 := by
  refine ⟨extract_draftC5, by decide, by decide, by decide⟩

/-- The C4 draft: the same quote with the same attribution, twice. -/
def draftC4 : List Char :=
  "As Jo, \"this is a long enough quote\". As Jo, \"this is a long enough quote\".".toList

/-- The entry both matches of pattern 4 produce on `draftC4`. -/
def spanC4 : QuotedSpanE :=
  ⟨"this is a long enough quote".toList, "Jo".toList, draftC4⟩

set_option maxRecDepth 1000000 in
set_option maxHeartbeats 4000000 in
/-- Evaluation of the extractor on `draftC4`. -/
theorem extract_draftC4 :
    extractQuotesFromDraft draftC4 = [spanC4, spanC4] := by
  decide

/-- C4 fails on the code: the extractor returns two entries with the
identical `(text, attribution)` pair for `draftC4`; no deduplication pass
exists. -/
theorem extractor_dedup_cex :
    ¬ ((extractQuotesFromDraft draftC4).map
        (fun e => (e.text, e.attribution))).Nodup := by
  rw [extract_draftC4]
  simp

/-- C4 amended: the extractor removes no duplicates — a draft in which the
same `(text, attribution)` pair is matched twice yields two identical
entries, in match order. -/
theorem extractor_returns_duplicates :
    extractQuotesFromDraft draftC4 = [spanC4, spanC4] ∧
      (extractQuotesFromDraft draftC4).length = 2 ∧
      (extractQuotesFromDraft draftC4).get? 0 =
        (extractQuotesFromDraft draftC4).get? 1 := by
  refine ⟨extract_draftC4, ?_, ?_⟩ <;> rw [extract_draftC4] <;> rfl

/-- Formalization of C6's "a quote that meets the 20-character minimum":
the draft contains a closed double-quoted span of at least 20 characters
(the segments between quote marks at odd positions of the split). -/
def hasQuotedSpan20 (draft : List Char) : Bool :=
  ((splitCh '"' draft).dropLast).enum.any
    (fun p => p.1 % 2 = 1 && 20 ≤ p.2.length)

/-- The C6 draft: a 44-character quoted span with no attribution pattern
around it ("remarked" is not one of the recognized verbs). -/
def draftC6 : List Char :=
  "He remarked \"a standalone quotation of sufficient length\" yesterday.".toList

set_option maxRecDepth 1000000 in
set_option maxHeartbeats 4000000 in
/-- Evaluation of the extractor on `draftC6`. -/
theorem extract_draftC6 : extractQuotesFromDraft draftC6 = [] := by
  decide

/-- C6 fails on the code: `draftC6` contains a quoted span meeting the
20-character minimum, yet the extractor returns no entry at all for it —
there is no `"Unknown"`-attribution fallback; the quote is silently
dropped. -/
theorem unknown_attribution_cex :
    ¬ (hasQuotedSpan20 draftC6 = true → extractQuotesFromDraft draftC6 ≠ []) := by
  intro hclaim
  exact hclaim (by decide) extract_draftC6

/-- C6 amended: a quoted span of at least 20 characters adjacent to no
recognized attribution pattern is dropped entirely — the extractor emits no
entry for it (rather than an entry with an `"Unknown"` sentinel). -/
theorem quote_without_attribution_dropped :
    hasQuotedSpan20 draftC6 = true ∧ extractQuotesFromDraft draftC6 = [] := by
  exact ⟨by decide, extract_draftC6⟩
